import Mathlib

/-!
Verification of the module-registry and meeting-format scheduling core of the
`easier-softer-meeting-manager` repository.

Shallow embedding of:
  * `apps/registry/base_module.py` (ModuleConfig, BaseModule.check_access,
    BaseModule.check_write_access),
  * `apps/registry/module_registry.py` (ModuleRegistry.register,
    get_modules_for_user, get_settings_sections_for_user),
  * `apps/meeting_format/services.py` (FormatService.get_active_variation,
    _matches_schedule, _is_nth_weekday, get_format_for_date),
  * `apps/meeting_format/models.py` (BlockVariation.save default handling),
  * `apps/meeting_format/views.py` (PublicFormatView additive variation
    selection).

Django querysets are embedded as Lean lists in the model's default ordering;
`filter` is `List.filter`, `order_by` is a stable insertion sort on the key,
`.first()` is `List.head?` after that ordering.
-/

namespace MeetingManager

/-! ## Calendar dates

The scheduling engine consumes Python `datetime.date` values.  We embed a date
as year/month/day and model `date.weekday()` (Monday = 0 … Sunday = 6) by the
proleptic-Gregorian ordinal, exactly the semantics of Python's `datetime`
module (`date.toordinal`, with ordinal 1 = 0001-01-01, a Monday). -/

structure Date where
  year : Nat
  month : Nat
  day : Nat
deriving DecidableEq, Repr

/-- Leap-year rule of the proleptic Gregorian calendar. -/
def isLeapYear (y : Nat) : Bool :=
  y % 4 == 0 && (y % 100 != 0 || y % 400 == 0)

/-- Days in the months strictly before month `m` of year `y`. -/
def daysBeforeMonth (y m : Nat) : Nat :=
  let base := [0, 31, 59, 90, 120, 151, 181, 212, 243, 273, 304, 334].getD (m - 1) 0
  base + (if 2 < m && isLeapYear y then 1 else 0)

/-- Python `date.toordinal`: 0001-01-01 is ordinal 1. -/
def Date.toordinal (d : Date) : Nat :=
  let n := d.year - 1
  365 * n + n / 4 + n / 400 - n / 100 + daysBeforeMonth d.year d.month + d.day

/-- Python `date.weekday()`: Monday = 0 … Sunday = 6. -/
def Date.weekday (d : Date) : Nat :=
  (d.toordinal - 1) % 7

/-! ## Schedule rules (`VariationSchedule` in `meeting_format/models.py`)

`occurrence`, `weekday` and `specific_date` are nullable model fields, hence
`Option`s here.  Python comparisons of an `int`/`date` against `None` are
always unequal; the embedding reproduces that in each matching branch. -/

inductive ScheduleType where
  | weekdayOccurrence
  | dayOfWeek
  | specificDate
deriving DecidableEq, Repr

structure VariationSchedule where
  scheduleType : ScheduleType
  occurrence : Option Nat
  weekday : Option Nat
  specificDate : Option Date
deriving DecidableEq, Repr

/-- `FormatService._is_nth_weekday`: is `check_date` the `n`-th occurrence of
`weekday` within its month? -/
def isNthWeekday (checkDate : Date) (n : Nat) (weekday : Nat) : Bool :=
  if checkDate.weekday != weekday then false
  else
    let day := checkDate.day
    let occurrence := (day - 1) / 7 + 1
    occurrence == n

/-- One iteration of the rule loop in `FormatService._matches_schedule`.
A `None` field makes the branch's comparison false, as in Python. -/
def ruleMatches (s : VariationSchedule) (checkDate : Date) : Bool :=
  match s.scheduleType with
  | .weekdayOccurrence =>
      match s.occurrence, s.weekday with
      | some n, some w => isNthWeekday checkDate n w
      | _, _ => false
  | .dayOfWeek =>
      match s.weekday with
      | some w => checkDate.weekday == w
      | none => false
  | .specificDate =>
      match s.specificDate with
      | some sd => checkDate == sd
      | none => false

/-- `FormatService._matches_schedule`: first matching rule returns `True`,
otherwise `False` after the loop. -/
def matchesSchedule : List VariationSchedule → Date → Bool
  | [], _ => false
  | s :: rest, d => if ruleMatches s d then true else matchesSchedule rest d

/-! ## Queryset ordering

Django applies the model's `Meta.ordering` (`['order']` for `FormatBlock` and
`BlockVariation`) to querysets; `order_by('order')` is explicit in the
services.  We embed that as a stable insertion sort on the `order` key. -/

/-- Insert `x` into `l`, before the first element with a strictly larger key
(so equal keys keep `x` in front: stability for the list built head-first). -/
def insertByOrder (key : α → Nat) (x : α) : List α → List α
  | [] => [x]
  | y :: ys => if key x ≤ key y then x :: y :: ys else y :: insertByOrder key x ys

/-- Stable sort by a `Nat` key, modelling `order_by('order')`. -/
def sortByOrder (key : α → Nat) : List α → List α
  | [] => []
  | x :: xs => insertByOrder key x (sortByOrder key xs)

/-! ## Blocks and variations (`meeting_format/models.py`)

`BlockVariation` rows are embedded with their primary key `id`, the nullable
`meeting_type` foreign key (as an `Option` of the type's primary key), and the
fields the selection/save logic reads.  `content`, timestamps and the
HTML-sanitisation step of `save` are orthogonal to every property below and
are not modelled. -/

structure Variation where
  id : Nat
  meetingType : Option Nat
  order : Nat
  isDefault : Bool
  isActive : Bool
  schedules : List VariationSchedule
deriving DecidableEq, Repr

structure Block where
  order : Nat
  isActive : Bool
  variations : List Variation
deriving DecidableEq, Repr

/-- `block.variations.filter(is_active=True).order_by('order')`. -/
def activeSorted (b : Block) : List Variation :=
  sortByOrder (fun v => v.order) (b.variations.filter (fun v => v.isActive))

/-- Lift `_matches_schedule` to a variation, as the service calls it. -/
def variationMatches (v : Variation) (d : Date) : Bool :=
  matchesSchedule v.schedules d

/-- `FormatService.get_active_variation`: first active variation (by `order`)
with a matching schedule; else the first active default; else the first active
variation; else `none`. -/
def getActiveVariation (b : Block) (d : Date) : Option Variation :=
  let active := activeSorted b
  match active.find? (fun v => variationMatches v d) with
  | some v => some v
  | none =>
      match (active.filter (fun v => v.isDefault)).head? with
      | some dflt => some dflt
      | none => active.head?

/-- `FormatBlock.is_rotating`. -/
def isRotating (b : Block) : Bool :=
  1 < (b.variations.filter (fun v => v.isActive)).length

/-- One entry of the list built by `FormatService.get_format_for_date`. -/
structure FormatEntry where
  block : Block
  activeVariation : Option Variation
  allVariations : List Variation
  isRotating : Bool
deriving DecidableEq, Repr

/-- `FormatService.get_format_for_date`: iterate the meeting's active blocks in
ascending `order`, pairing each with its selected variation. -/
def getFormatForDate (blocks : List Block) (d : Date) : List FormatEntry :=
  (sortByOrder (fun b => b.order) (blocks.filter (fun b => b.isActive))).map
    (fun b =>
      { block := b
        activeVariation := getActiveVariation b d
        allVariations := b.variations.filter (fun v => v.isActive)
        isRotating := isRotating b })

/-! ## Additive public selection (`PublicFormatView.get_context_data`)

For each block the view walks `block.variations.filter(is_active=True)` and
keeps a variation when it has no meeting type, or when a preview type is
selected and the variation's type matches it. -/

/-- The `active_variations` list built per block in the public view, given the
currently selected (preview) meeting type. -/
def additiveVariations (vars : List Variation) (previewType : Option Nat) :
    List Variation :=
  (vars.filter (fun v => v.isActive)).filter (fun v =>
    match v.meetingType with
    | none => true
    | some t =>
        match previewType with
        | some pt => t == pt
        | none => false)

/-! ## `BlockVariation.save` default handling (`meeting_format/models.py`)

The block's variations table is a list of rows (distinct primary keys); saving
`v` first unsets `is_default` on every other row of the block when `v` is
default, then makes `v` default when no other row of the block is, and finally
writes `v`'s row (update or insert). -/

/-- The `update(is_default=False)` applied to every other row of the block
when the saved row claims the default flag. -/
def unsetOther (v u : Variation) : Variation :=
  if u.id ≠ v.id then { u with isDefault := false } else u

/-- The block's rows after the "unset any prior default" step of
`BlockVariation.save` (a no-op when `v` is not being made default). -/
def rowsAfterUnset (rows : List Variation) (v : Variation) : List Variation :=
  if v.isDefault then rows.map (unsetOther v) else rows

/-- The `has_default` existence query of `BlockVariation.save`: does any
other row of the block (after the unset step) still carry the default flag? -/
def otherHasDefault (rows : List Variation) (v : Variation) : Bool :=
  (rowsAfterUnset rows v).any (fun u => u.id ≠ v.id && u.isDefault)

/-- The row finally written by `super().save()`: `v`, promoted to default
when no other default exists. -/
def savedRow (rows : List Variation) (v : Variation) : Variation :=
  if otherHasDefault rows v then v else { v with isDefault := true }

/-- `BlockVariation.save` restricted to one block's rows: unset other
defaults if needed, promote `v` if no default remains, then update or insert
`v`'s row. -/
def saveVariation (rows : List Variation) (v : Variation) : List Variation :=
  let rows1 := rowsAfterUnset rows v
  if rows1.any (fun u => u.id == v.id) then
    rows1.map (fun u => if u.id = v.id then savedRow rows v else u)
  else rows1 ++ [savedRow rows v]

/-- Number of default rows in a block. -/
def countDefaults (rows : List Variation) : Nat :=
  (rows.filter (fun u => u.isDefault)).length

/-! ## Module registry (`apps/registry`)

`ModuleConfig` keeps the fields the registry logic reads; `nav_items`, icons
and version strings play no role in the claims.  A principal is embedded by
its superuser flag and the set of position-tag names it currently holds
(`User.has_any_position` unions the assignment table with the legacy M2M; the
embedding carries that union as one list). -/

structure SettingsSection where
  name : String
  title : String
  order : Nat
deriving DecidableEq, Repr

structure ModuleConfig where
  name : String
  requiredPositions : List String
  readPositions : List String
  order : Nat
  isEnabled : Bool
deriving DecidableEq, Repr

/-- A registered module: its config plus the settings sections its
`get_settings_sections` returns (the base class returns `[]`). -/
structure Module where
  config : ModuleConfig
  settingsSections : List SettingsSection
deriving DecidableEq, Repr

structure Principal where
  isSuperuser : Bool
  positions : List String
deriving DecidableEq, Repr

/-- `User.has_any_position`: does the principal currently hold any of the
named positions? -/
def hasAnyPosition (p : Principal) (names : List String) : Bool :=
  p.positions.any (fun t => names.contains t)

/-- `BaseModule.check_access`: empty `read_positions` admits everyone, else
the principal must hold one of the read tags. -/
def checkAccess (m : Module) (p : Principal) : Bool :=
  if m.config.readPositions.isEmpty then true
  else hasAnyPosition p m.config.readPositions

/-- `BaseModule.check_write_access`: empty `required_positions` admits
everyone, else the principal must hold one of the required tags. -/
def checkWriteAccess (m : Module) (p : Principal) : Bool :=
  if m.config.requiredPositions.isEmpty then true
  else hasAnyPosition p m.config.requiredPositions

/-- `ModuleRegistry.get_modules_for_user`: enabled modules passing
`check_access`, sorted ascending by `config.order` (Python's `sorted` is
stable, so ties keep registration order). -/
def getModulesForUser (modules : List Module) (p : Principal) : List Module :=
  sortByOrder (fun m => m.config.order)
    (modules.filter (fun m => m.config.isEnabled && checkAccess m p))

/-- `ModuleRegistry.get_settings_sections_for_user`: for each accessible
module that also passes `check_write_access`, emit its sections; sort the
combined list by section `order`.  An entry is embedded as the contributing
module paired with the section. -/
def getSettingsSectionsForUser (modules : List Module) (p : Principal) :
    List (Module × SettingsSection) :=
  sortByOrder (fun e => e.2.order)
    (((getModulesForUser modules p).filter (fun m => checkWriteAccess m p)).flatMap
      (fun m => m.settingsSections.map (fun s => (m, s))))

/-! ### Registration (`ModuleRegistry.register`)

The registry state is the `_modules` dict (an insertion-ordered association
list), plus the observable side effects the claim speaks about: the warnings
logged and the `on_register` hooks invoked (recorded by module name, appended
at invocation time). -/

structure RegistryState where
  modules : List (String × Module)
  warnings : List String
  onRegisterCalls : List String
deriving DecidableEq, Repr

def RegistryState.empty : RegistryState := ⟨[], [], []⟩

/-- `ModuleRegistry.register`: a duplicate name logs a warning and returns;
otherwise the module is stored and its `on_register` hook runs once. -/
def register (s : RegistryState) (m : Module) : RegistryState :=
  let name := m.config.name
  if s.modules.any (fun kv => kv.1 == name) then
    { s with warnings := s.warnings ++ [name] }
  else
    { modules := s.modules ++ [(name, m)]
      warnings := s.warnings
      onRegisterCalls := s.onRegisterCalls ++ [name] }

/-- Registering a list of modules in order, from the empty registry (as
`autodiscover` does). -/
def registerAll (ms : List Module) : RegistryState :=
  ms.foldl register RegistryState.empty

/-! ### Concrete fixtures used in counterexamples and witnesses -/

/-- An enabled module whose reading is restricted to the treasurer tag. -/
def readGatedModule : Module := ⟨⟨"treasury", [], ["treasurer"], 100, true⟩, []⟩

/-- An enabled module readable by everyone but writable only by the
treasurer tag, contributing one settings section. -/
def writeGatedModule : Module :=
  ⟨⟨"treasury", ["treasurer"], [], 100, true⟩, [⟨"main", "Treasury", 10⟩]⟩

/-- A superuser principal holding no position tags. -/
def superuser : Principal := ⟨true, []⟩

/-- An enabled module writable by the treasurer tag but readable only by the
secretary tag. -/
def splitAccessModule : Module :=
  ⟨⟨"split", ["treasurer"], ["secretary"], 100, true⟩, [⟨"main", "Split", 10⟩]⟩

/-- A non-superuser principal holding only the treasurer tag. -/
def treasurerOnly : Principal := ⟨false, ["treasurer"]⟩

end MeetingManager

namespace MeetingManager

/-! ## Helper lemmas about the queryset-ordering model -/

theorem mem_insertByOrder {key : α → Nat} {x a : α} : ∀ {l : List α},
    (a ∈ insertByOrder key x l ↔ a = x ∨ a ∈ l)
  | [] => by simp [insertByOrder]
  | y :: ys => by
      by_cases h : key x ≤ key y
      · simp [insertByOrder, h]
      · simp only [insertByOrder, if_neg h, List.mem_cons,
          mem_insertByOrder (l := ys)]
        tauto

theorem mem_sortByOrder {key : α → Nat} {a : α} : ∀ {l : List α},
    (a ∈ sortByOrder key l ↔ a ∈ l)
  | [] => Iff.rfl
  | x :: xs => by
      simp [sortByOrder, mem_insertByOrder, mem_sortByOrder (l := xs)]

/-- `matchesSchedule` is `List.any` of the single-rule matcher. -/
theorem matchesSchedule_eq_any (rules : List VariationSchedule) (d : Date) :
    matchesSchedule rules d = rules.any (fun s => ruleMatches s d) := by
  induction rules with
  | nil => rfl
  | cons s rest ih => by_cases h : ruleMatches s d <;> simp [matchesSchedule, h, ih]

/-- Tuesday is weekday 1 in Python's convention; Jan 21 2025 is a Tuesday. -/
theorem jan21_weekday : (Date.mk 2025 1 21).weekday = 1 := by decide

/-- C4. A `weekday_occurrence` rule matches a date exactly when the weekday
agrees and `(day - 1) // 7 + 1` equals the stored occurrence; the
`(occurrence=3, weekday=Tuesday)` rule matches 2025-01-21 and rejects
2025-01-14 and 2025-01-28. -/
theorem claim_C4_weekday_occurrence :
    (∀ (d : Date) (n w : Nat) (sd : Option Date),
      ruleMatches ⟨.weekdayOccurrence, some n, some w, sd⟩ d = true ↔
        d.weekday = w ∧ (d.day - 1) / 7 + 1 = n) ∧
    ruleMatches ⟨.weekdayOccurrence, some 3, some 1, none⟩ ⟨2025, 1, 21⟩ = true ∧
    ruleMatches ⟨.weekdayOccurrence, some 3, some 1, none⟩ ⟨2025, 1, 14⟩ = false ∧
    ruleMatches ⟨.weekdayOccurrence, some 3, some 1, none⟩ ⟨2025, 1, 28⟩ = false := by
  refine ⟨fun d n w sd => ?_, by decide, by decide, by decide⟩
  by_cases h : d.weekday = w
  · simp [ruleMatches, isNthWeekday, h]
  · simp [ruleMatches, isNthWeekday, h, bne_iff_ne]

/-- C9. Rule matching is a total boolean function, and a variation owning no
schedule rules never matches via schedule. -/
theorem claim_C9_matching_total :
    (∀ (rules : List VariationSchedule) (d : Date),
      matchesSchedule rules d = true ∨ matchesSchedule rules d = false) ∧
    (∀ (v : Variation) (d : Date), v.schedules = [] →
      variationMatches v d = false) := by
  refine ⟨fun rules d => ?_, fun v d h => ?_⟩
  · cases matchesSchedule rules d <;> simp
  · simp [variationMatches, h, matchesSchedule]

/-- Witness for C9 at a concrete variation with no rules. -/
theorem claim_C9_witness :
    variationMatches ⟨1, none, 0, false, true, []⟩ ⟨2025, 1, 21⟩ = false :=
  claim_C9_matching_total.2 ⟨1, none, 0, false, true, []⟩ ⟨2025, 1, 21⟩ rfl

/-- A block with no active variations selects nothing. -/
theorem getActiveVariation_of_no_active {b : Block} {d : Date}
    (h : b.variations.filter (fun v => v.isActive) = []) :
    getActiveVariation b d = none := by
  simp [getActiveVariation, activeSorted, h, sortByOrder]

/-- C3. `get_active_variation` returns the first active variation (in
ascending `order`) with a matching rule; failing that, the active default;
failing that, the first active variation; and `none` when the block has no
active variations. -/
theorem claim_C3_selection_policy :
    ∀ (b : Block) (d : Date),
      (b.variations.filter (fun v => v.isActive) = [] →
        getActiveVariation b d = none) ∧
      (∀ (l₁ : List Variation) (v : Variation) (l₂ : List Variation),
        activeSorted b = l₁ ++ v :: l₂ →
        (∀ u ∈ l₁, variationMatches u d = false) →
        variationMatches v d = true →
        getActiveVariation b d = some v) ∧
      ((∀ u ∈ activeSorted b, variationMatches u d = false) →
        ∀ w ∈ activeSorted b, w.isDefault = true →
        (∀ u ∈ activeSorted b, u.isDefault = true → u = w) →
        getActiveVariation b d = some w) ∧
      ((∀ u ∈ activeSorted b, variationMatches u d = false) →
        (∀ u ∈ activeSorted b, u.isDefault = false) →
        getActiveVariation b d = (activeSorted b).head?) := by
  intro b d
  refine ⟨getActiveVariation_of_no_active, ?_, ?_, ?_⟩
  · intro l₁ v l₂ hsplit h₁ hv
    have hfind : (activeSorted b).find? (fun u => variationMatches u d) = some v := by
      rw [hsplit, List.find?_append]
      have h1 : l₁.find? (fun u => variationMatches u d) = none :=
        List.find?_eq_none.mpr (fun x hx => by simp [h₁ x hx])
      rw [h1, Option.none_or]
      exact List.find?_cons_of_pos l₂ hv
    simp [getActiveVariation, hfind]
  · intro hnom w hw hwd huniq
    have hfind : (activeSorted b).find? (fun u => variationMatches u d) = none :=
      List.find?_eq_none.mpr (fun x hx => by simp [hnom x hx])
    have hmem : w ∈ (activeSorted b).filter (fun v => v.isDefault) :=
      List.mem_filter.mpr ⟨hw, hwd⟩
    obtain ⟨y, l', hyl⟩ : ∃ y l',
        (activeSorted b).filter (fun v => v.isDefault) = y :: l' := by
      cases hfil : (activeSorted b).filter (fun v => v.isDefault) with
      | nil => rw [hfil] at hmem; cases hmem
      | cons y l' => exact ⟨y, l', rfl⟩
    have hy : y ∈ (activeSorted b).filter (fun v => v.isDefault) := by
      rw [hyl]; exact List.mem_cons_self _ _
    have hy' := List.mem_filter.mp hy
    have hyw : y = w := huniq y hy'.1 hy'.2
    simp [getActiveVariation, hfind, hyl, hyw]
  · intro hnom hnod
    have hfind : (activeSorted b).find? (fun u => variationMatches u d) = none :=
      List.find?_eq_none.mpr (fun x hx => by simp [hnom x hx])
    have hfil : (activeSorted b).filter (fun v => v.isDefault) = [] :=
      List.filter_eq_nil_iff.mpr (fun x hx => by simp [hnod x hx])
    simp [getActiveVariation, hfind, hfil]

/-- Witness for C3: the spec's own example — variations A (order 1, no
rules) and B (order 2, default), both active, no rule matches, so B is
selected. -/
theorem claim_C3_witness :
    getActiveVariation
      ⟨1, true, [⟨1, none, 1, false, true, []⟩, ⟨2, none, 2, true, true, []⟩]⟩
      ⟨2025, 1, 21⟩ = some ⟨2, none, 2, true, true, []⟩ :=
  (claim_C3_selection_policy
      ⟨1, true, [⟨1, none, 1, false, true, []⟩, ⟨2, none, 2, true, true, []⟩]⟩
      ⟨2025, 1, 21⟩).2.2.1
    (by decide) _ (by decide) (by decide) (by decide)

/-- C8. `get_format_for_date` emits one entry per active block in ascending
`order`, each carrying the variation chosen by `get_active_variation`; a
block without active variations still appears, with no active variation. -/
theorem claim_C8_assemble_format :
    ∀ (blocks : List Block) (d : Date),
      ((getFormatForDate blocks d).map (fun e => e.block) =
        sortByOrder (fun b => b.order) (blocks.filter (fun b => b.isActive))) ∧
      (∀ e ∈ getFormatForDate blocks d,
        e.activeVariation = getActiveVariation e.block d) ∧
      (∀ b ∈ blocks, b.isActive = true →
        (∃ e ∈ getFormatForDate blocks d, e.block = b) ∧
        (b.variations.filter (fun v => v.isActive) = [] →
          ∀ e ∈ getFormatForDate blocks d, e.block = b →
            e.activeVariation = none)) := by
  intro blocks d
  refine ⟨?_, ?_, ?_⟩
  · simp only [getFormatForDate, List.map_map]
    exact List.map_id' _
  · intro e he
    obtain ⟨b, _, rfl⟩ := List.mem_map.mp he
    rfl
  · intro b hb hba
    have hmem : b ∈ sortByOrder (fun b => b.order)
        (blocks.filter (fun b => b.isActive)) :=
      mem_sortByOrder.mpr (List.mem_filter.mpr ⟨hb, hba⟩)
    constructor
    · exact ⟨_, List.mem_map_of_mem _ hmem, rfl⟩
    · intro hempty e he heb
      obtain ⟨b', _, rfl⟩ := List.mem_map.mp he
      have hbb : b' = b := heb
      subst hbb
      exact getActiveVariation_of_no_active hempty

/-- Witness for C8: a single active block with no variations still yields an
entry, whose selected variation is `none`. -/
theorem claim_C8_witness :
    ∃ e ∈ getFormatForDate [⟨2, true, []⟩] ⟨2025, 1, 21⟩,
      e.block = ⟨2, true, []⟩ ∧ e.activeVariation = none := by
  have h := (claim_C8_assemble_format [⟨2, true, []⟩] ⟨2025, 1, 21⟩).2.2
    ⟨2, true, []⟩ (by decide) (by decide)
  obtain ⟨e, he, heb⟩ := h.1
  exact ⟨e, he, heb, h.2 rfl e he heb⟩

/-! ## Helper lemmas for `BlockVariation.save` -/

theorem unsetOther_id (v u : Variation) : (unsetOther v u).id = u.id := by
  unfold unsetOther; split <;> rfl

theorem savedRow_id (rows : List Variation) (v : Variation) :
    (savedRow rows v).id = v.id := by
  unfold savedRow; split <;> rfl

theorem countDefaults_eq_countP (l : List Variation) :
    countDefaults l = l.countP (fun u => u.isDefault) := by
  simp [countDefaults, List.countP_eq_length_filter]

/-- With pairwise-distinct primary keys, exactly one row carries a key that
is present. -/
theorem countP_id_of_nodup (rows : List Variation)
    (hnodup : (rows.map (fun u => u.id)).Nodup) (c : Nat)
    (hmem : ∃ x ∈ rows, x.id = c) :
    rows.countP (fun u => u.id == c) = 1 := by
  induction rows with
  | nil => obtain ⟨x, hx, _⟩ := hmem; cases hx
  | cons u rest ih =>
      simp only [List.map_cons, List.nodup_cons] at hnodup
      by_cases h : u.id = c
      · rw [List.countP_cons_of_pos (fun u => u.id == c) rest (by simp [h])]
        have hz : rest.countP (fun u => u.id == c) = 0 := by
          rw [List.countP_eq_zero]
          intro x hx hxc
          have hxc' : x.id = c := by simpa using hxc
          apply hnodup.1
          rw [h, ← hxc']
          exact List.mem_map_of_mem _ hx
        omega
      · rw [List.countP_cons_of_neg (fun u => u.id == c) rest (by simp [h])]
        apply ih hnodup.2
        obtain ⟨x, hx, hxc⟩ := hmem
        rcases List.mem_cons.mp hx with rfl | hx'
        · exact absurd hxc h
        · exact ⟨x, hx', hxc⟩

theorem rowsAfterUnset_map_id (rows : List Variation) (v : Variation) :
    (rowsAfterUnset rows v).map (fun u => u.id) = rows.map (fun u => u.id) := by
  unfold rowsAfterUnset
  split
  · rw [List.map_map]
    exact List.map_congr_left (fun x _ => unsetOther_id v x)
  · rfl

theorem any_id_rowsAfterUnset (rows : List Variation) (v : Variation) (c : Nat) :
    (rowsAfterUnset rows v).any (fun u => u.id == c) =
      rows.any (fun u => u.id == c) := by
  have h1 : ∀ l : List Variation,
      l.any (fun u => u.id == c) = (l.map (fun u => u.id)).any (fun i => i == c) := by
    intro l
    induction l with
    | nil => rfl
    | cons x xs ih => simp [List.any_cons, ih]
  rw [h1, h1, rowsAfterUnset_map_id]

/-- Counting after a map, by a pointwise description of the mapped
predicate. -/
theorem countP_map_pointwise (f : α → β) (p : β → Bool) (q : α → Bool) :
    ∀ l : List α, (∀ x ∈ l, p (f x) = q x) →
      (l.map f).countP p = l.countP q
  | [], _ => rfl
  | x :: xs, h => by
      rw [List.map_cons, List.countP_cons, List.countP_cons,
        countP_map_pointwise f p q xs (fun y hy => h y (List.mem_cons_of_mem _ hy)),
        h x (List.mem_cons_self x xs)]

/-- Core invariant of `BlockVariation.save`: with pairwise-distinct primary
keys and at most one default beforehand, exactly one default row remains. -/
theorem countP_isDefault_saveVariation (rows : List Variation) (v : Variation)
    (hnodup : (rows.map (fun u => u.id)).Nodup)
    (hle : rows.countP (fun u => u.isDefault) ≤ 1) :
    (saveVariation rows v).countP (fun u => u.isDefault) = 1 := by
  simp only [saveVariation]
  rw [any_id_rowsAfterUnset rows v v.id]
  by_cases hvd : v.isDefault = true
  · have hrows1 : rowsAfterUnset rows v = rows.map (unsetOther v) := by
      simp [rowsAfterUnset, hvd]
    have hsaved : savedRow rows v = { v with isDefault := true } := by
      have hhd : otherHasDefault rows v = false := by
        unfold otherHasDefault
        rw [hrows1, List.any_eq_false]
        intro x hx
        obtain ⟨y, hy, rfl⟩ := List.mem_map.mp hx
        by_cases hid : y.id = v.id
        · simp [unsetOther, hid]
        · simp [unsetOther, hid]
      unfold savedRow
      rw [hhd]
      simp
    by_cases hb : rows.any (fun u => u.id == v.id) = true
    · rw [if_pos hb, hrows1, List.map_map]
      rw [countP_map_pointwise _ _ (fun u => u.id == v.id) rows ?hpt]
      case hpt =>
        intro x _
        by_cases hid : x.id = v.id
        · simp [Function.comp, unsetOther, hid, hsaved]
        · simp [Function.comp, unsetOther, hid]
      obtain ⟨x, hx, hxe⟩ := List.any_eq_true.mp hb
      exact countP_id_of_nodup rows hnodup v.id ⟨x, hx, by simpa using hxe⟩
    · rw [if_neg hb, hrows1, List.countP_append, List.countP_singleton]
      have hall : ∀ x ∈ rows, ¬(x.id == v.id) = true := by
        intro x hx
        exact fun hxe => hb (List.any_eq_true.mpr ⟨x, hx, hxe⟩)
      rw [countP_map_pointwise _ _ (fun _ => false) rows ?hz]
      case hz =>
        intro x hx
        have hid : x.id ≠ v.id := fun h => hall x hx (by simp [h])
        simp [unsetOther, hid]
      simp [hsaved]
  · have hvd' : v.isDefault = false := by
      cases hv : v.isDefault
      · rfl
      · exact absurd hv hvd
    have hrows1 : rowsAfterUnset rows v = rows := by
      simp [rowsAfterUnset, hvd']
    have hhd : otherHasDefault rows v =
        rows.any (fun u => decide (u.id ≠ v.id) && u.isDefault) := by
      unfold otherHasDefault
      rw [hrows1]
    by_cases hd : otherHasDefault rows v = true
    · have hsaved : savedRow rows v = v := by
        unfold savedRow
        rw [hd]
        simp
      obtain ⟨u₀, hu₀, hq₀⟩ := List.any_eq_true.mp (hhd ▸ hd)
      have hq₀' : u₀.id ≠ v.id ∧ u₀.isDefault = true := by
        simpa using hq₀
      by_cases hb : rows.any (fun u => u.id == v.id) = true
      · rw [if_pos hb, hrows1]
        rw [countP_map_pointwise _ _
          (fun u => decide (u.id ≠ v.id) && u.isDefault) rows ?hpt2]
        case hpt2 =>
          intro x _
          by_cases hid : x.id = v.id
          · simp [hid, hsaved, hvd']
          · simp [hid]
        have hpos : 0 < rows.countP (fun u => decide (u.id ≠ v.id) && u.isDefault) :=
          List.countP_pos_iff.mpr ⟨u₀, hu₀, by simp [hq₀'.1, hq₀'.2]⟩
        have hmono : rows.countP (fun u => decide (u.id ≠ v.id) && u.isDefault) ≤
            rows.countP (fun u => u.isDefault) :=
          List.countP_mono_left (fun x _ hx => by
            simp only [Bool.and_eq_true] at hx
            exact hx.2)
        omega
      · rw [if_neg hb, hrows1, List.countP_append, List.countP_singleton]
        have hpos : 0 < rows.countP (fun u => u.isDefault) :=
          List.countP_pos_iff.mpr ⟨u₀, hu₀, hq₀'.2⟩
        rw [hsaved]
        simp only [hvd', Bool.false_eq_true, if_false]
        omega
    · have hsaved : savedRow rows v = { v with isDefault := true } := by
        unfold savedRow
        rw [Bool.of_not_eq_true hd]
        simp
      have hfact : ∀ x ∈ rows, x.id ≠ v.id → x.isDefault = false := by
        intro x hx hid
        have := List.any_eq_false.mp (Bool.of_not_eq_true (hhd ▸ hd)) x hx
        simpa [hid] using this
      by_cases hb : rows.any (fun u => u.id == v.id) = true
      · rw [if_pos hb, hrows1]
        rw [countP_map_pointwise _ _ (fun u => u.id == v.id) rows ?hpt3]
        case hpt3 =>
          intro x hx
          by_cases hid : x.id = v.id
          · simp [hid, hsaved]
          · simp [hid, hfact x hx hid]
        obtain ⟨x, hx, hxe⟩ := List.any_eq_true.mp hb
        exact countP_id_of_nodup rows hnodup v.id ⟨x, hx, by simpa using hxe⟩
      · rw [if_neg hb, hrows1, List.countP_append, List.countP_singleton]
        have hz : rows.countP (fun u => u.isDefault) = 0 := by
          rw [List.countP_eq_zero]
          intro x hx
          have hid : x.id ≠ v.id := by
            intro h
            exact hb (List.any_eq_true.mpr ⟨x, hx, by simp [h]⟩)
          simp [hfact x hx hid]
        rw [hz, hsaved]
        simp

/-- When the saved row claims the default flag, every other row of the block
loses it. -/
theorem saveVariation_unsets_others (rows : List Variation) (v : Variation)
    (hvd : v.isDefault = true) :
    ∀ u ∈ saveVariation rows v, u.id ≠ v.id → u.isDefault = false := by
  intro u hu hne
  have hrows1 : rowsAfterUnset rows v = rows.map (unsetOther v) := by
    simp [rowsAfterUnset, hvd]
  simp only [saveVariation] at hu
  split at hu
  · rw [hrows1, List.map_map] at hu
    obtain ⟨x, _, rfl⟩ := List.mem_map.mp hu
    by_cases hid : x.id = v.id
    · exfalso
      apply hne
      simp [Function.comp, unsetOther, hid, savedRow_id]
    · simp [Function.comp, unsetOther, hid]
  · rw [hrows1] at hu
    rcases List.mem_append.mp hu with hu' | hu'
    · obtain ⟨x, _, rfl⟩ := List.mem_map.mp hu'
      by_cases hid : x.id = v.id
      · exfalso
        apply hne
        simp [unsetOther, hid]
      · simp [unsetOther, hid]
    · exfalso
      apply hne
      have : u = savedRow rows v := List.mem_singleton.mp hu'
      rw [this, savedRow_id]

/-- C5 counterexample: the block holds one inactive default row (id 1);
saving an active non-default row (id 2) leaves the block with an active
variation but zero active defaults, so "exactly one active variation is
default whenever an active variation exists" fails. -/
theorem claim_C5_counterexample :
    ((saveVariation [⟨1, none, 0, true, false, []⟩]
        ⟨2, none, 1, false, true, []⟩).filter (fun u => u.isActive)) ≠ [] ∧
    countDefaults ((saveVariation [⟨1, none, 0, true, false, []⟩]
        ⟨2, none, 1, false, true, []⟩).filter (fun u => u.isActive)) ≠ 1 := by
  decide

/-- C5 (amended). Saving a variation with `is_default = true` unsets the
default flag on every other row of the block, and — for a block whose rows
have distinct primary keys and at most one default beforehand — every save
leaves exactly one default row in the block, counting inactive rows too (the
save logic never filters by `is_active`, so among the active variations alone
there may be no default). -/
theorem claim_C5_default_enforcement :
    ∀ (rows : List Variation) (v : Variation),
      (rows.map (fun u => u.id)).Nodup →
      countDefaults rows ≤ 1 →
      countDefaults (saveVariation rows v) = 1 ∧
      (v.isDefault = true →
        ∀ u ∈ saveVariation rows v, u.id ≠ v.id → u.isDefault = false) := by
  intro rows v hnodup hle
  rw [countDefaults_eq_countP] at hle
  refine ⟨?_, fun hvd => saveVariation_unsets_others rows v hvd⟩
  rw [countDefaults_eq_countP]
  exact countP_isDefault_saveVariation rows v hnodup hle

/-- Witness for C5: saving a second default over an existing default leaves
exactly one default in the block. -/
theorem claim_C5_witness :
    countDefaults (saveVariation [⟨1, none, 0, true, true, []⟩]
      ⟨2, none, 1, true, true, []⟩) = 1 :=
  (claim_C5_default_enforcement [⟨1, none, 0, true, true, []⟩]
    ⟨2, none, 1, true, true, []⟩ (by decide) (by decide)).1

/-- C10. `BlockVariation.save` preserves "at most one default row, counting
inactive rows" and establishes "at least one default row" (given distinct
primary keys); and because the logic never filters by `is_active`, the
surviving unique default can itself be inactive. -/
theorem claim_C10_save_invariant :
    (∀ (rows : List Variation) (v : Variation),
      (rows.map (fun u => u.id)).Nodup →
      countDefaults rows ≤ 1 →
      countDefaults (saveVariation rows v) ≤ 1 ∧
        1 ≤ countDefaults (saveVariation rows v)) ∧
    (((saveVariation [⟨1, none, 0, true, false, []⟩]
        ⟨2, none, 1, false, true, []⟩).filter (fun u => u.isDefault)).all
      (fun u => !u.isActive) = true ∧
     countDefaults (saveVariation [⟨1, none, 0, true, false, []⟩]
        ⟨2, none, 1, false, true, []⟩) = 1) := by
  constructor
  · intro rows v hnodup hle
    rw [countDefaults_eq_countP] at hle
    rw [countDefaults_eq_countP]
    have h := countP_isDefault_saveVariation rows v hnodup hle
    omega
  · exact ⟨by decide, by decide⟩

/-- Witness for C10: saving into an empty block installs the saved row as the
one default. -/
theorem claim_C10_witness :
    countDefaults (saveVariation [] ⟨7, none, 0, false, true, []⟩) ≤ 1 ∧
    1 ≤ countDefaults (saveVariation [] ⟨7, none, 0, false, true, []⟩) :=
  claim_C10_save_invariant.1 [] ⟨7, none, 0, false, true, []⟩
    (by decide) (by decide)

/-! ## Registry access-control lemmas -/

theorem checkAccess_iff (m : Module) (p : Principal) :
    checkAccess m p = true ↔
      (m.config.readPositions = [] ∨
        ∃ t ∈ p.positions, t ∈ m.config.readPositions) := by
  unfold checkAccess hasAnyPosition
  by_cases he : m.config.readPositions = []
  · simp [he]
  · have he' : m.config.readPositions.isEmpty = false := by
      simpa [List.isEmpty_iff] using he
    simp [he', he, List.any_eq_true]

theorem checkWriteAccess_iff (m : Module) (p : Principal) :
    checkWriteAccess m p = true ↔
      (m.config.requiredPositions = [] ∨
        ∃ t ∈ p.positions, t ∈ m.config.requiredPositions) := by
  unfold checkWriteAccess hasAnyPosition
  by_cases he : m.config.requiredPositions = []
  · simp [he]
  · have he' : m.config.requiredPositions.isEmpty = false := by
      simpa [List.isEmpty_iff] using he
    simp [he', he, List.any_eq_true]

theorem mem_getModulesForUser {mods : List Module} {p : Principal} {m : Module} :
    m ∈ getModulesForUser mods p ↔
      m ∈ mods ∧ m.config.isEnabled = true ∧ checkAccess m p = true := by
  unfold getModulesForUser
  rw [mem_sortByOrder, List.mem_filter, Bool.and_eq_true]

/-- C1 counterexample: a superuser holding no position tags does not see the
enabled, read-gated module, although the claim's right-hand side holds. -/
theorem claim_C1_counterexample :
    ¬ (readGatedModule ∈ getModulesForUser [readGatedModule] superuser ↔
        (readGatedModule.config.isEnabled = true ∧
          (superuser.isSuperuser = true ∨
            readGatedModule.config.readPositions = [] ∨
            ∃ t ∈ superuser.positions,
              t ∈ readGatedModule.config.readPositions))) := by
  decide

/-- C1 (amended). A registered module is in `get_modules_for_user(p)` iff it
is enabled and its `read_positions` is empty or `p` holds one of its read
tags; being superuser grants nothing here, because `check_access` never
consults the superuser flag. -/
theorem claim_C1_access_filter :
    ∀ (mods : List Module) (p : Principal) (m : Module), m ∈ mods →
      (m ∈ getModulesForUser mods p ↔
        m.config.isEnabled = true ∧
          (m.config.readPositions = [] ∨
            ∃ t ∈ p.positions, t ∈ m.config.readPositions)) := by
  intro mods p m hm
  rw [mem_getModulesForUser, checkAccess_iff]
  tauto

/-- Witness for C1: a treasurer principal sees the read-gated module. -/
theorem claim_C1_witness :
    readGatedModule ∈ getModulesForUser [readGatedModule] ⟨false, ["treasurer"]⟩ :=
  (claim_C1_access_filter [readGatedModule] ⟨false, ["treasurer"]⟩
    readGatedModule (by decide)).mpr (by decide)

/-- C2 counterexample: a superuser holding no position tags gets no settings
sections from the enabled module with non-empty `required_positions`,
although the claim's right-hand side holds; likewise a treasurer who
satisfies `required_positions` but not the module's `read_positions` gets no
sections, refuting "write access implies read access". -/
theorem claim_C2_counterexample :
    (¬ ((writeGatedModule, ⟨"main", "Treasury", 10⟩) ∈
          getSettingsSectionsForUser [writeGatedModule] superuser ↔
        (superuser.isSuperuser = true ∨
          ∃ t ∈ superuser.positions,
            t ∈ writeGatedModule.config.requiredPositions))) ∧
    (¬ ((splitAccessModule, ⟨"main", "Split", 10⟩) ∈
          getSettingsSectionsForUser [splitAccessModule] treasurerOnly ↔
        (treasurerOnly.isSuperuser = true ∨
          ∃ t ∈ treasurerOnly.positions,
            t ∈ splitAccessModule.config.requiredPositions))) := by
  exact ⟨by decide, by decide⟩

/-- C2 (amended). For a registered module with non-empty
`required_positions`, a section of it appears in
`get_settings_sections_for_user(p)` iff the module is enabled, the section is
one the module contributes, `p` passes the read check (`read_positions` empty
or a read tag held), and `p` holds one of the required tags; superuser status
grants nothing, and write access does not imply read access. -/
theorem claim_C2_settings_visibility :
    ∀ (mods : List Module) (p : Principal) (m : Module) (s : SettingsSection),
      m ∈ mods → m.config.requiredPositions ≠ [] →
      ((m, s) ∈ getSettingsSectionsForUser mods p ↔
        m.config.isEnabled = true ∧ s ∈ m.settingsSections ∧
        (m.config.readPositions = [] ∨
          ∃ t ∈ p.positions, t ∈ m.config.readPositions) ∧
        (∃ t ∈ p.positions, t ∈ m.config.requiredPositions)) := by
  intro mods p m s hm hreq
  unfold getSettingsSectionsForUser
  rw [mem_sortByOrder, List.mem_flatMap]
  constructor
  · rintro ⟨m', hm', hs⟩
    obtain ⟨s', hs', heq⟩ := List.mem_map.mp hs
    rw [Prod.mk.injEq] at heq
    obtain ⟨hm1, hs1⟩ := heq
    rw [hm1] at hm'
    rw [hm1] at hs'
    rw [hs1] at hs'
    have hm'' := List.mem_filter.mp hm'
    have hmem := mem_getModulesForUser.mp hm''.1
    have hw := (checkWriteAccess_iff m p).mp hm''.2
    refine ⟨hmem.2.1, hs', (checkAccess_iff m p).mp hmem.2.2, ?_⟩
    rcases hw with h | h
    · exact absurd h hreq
    · exact h
  · rintro ⟨hen, hs, hread, hwrite⟩
    refine ⟨m, ?_, List.mem_map_of_mem _ hs⟩
    refine List.mem_filter.mpr ⟨?_, ?_⟩
    · exact mem_getModulesForUser.mpr ⟨hm, hen, (checkAccess_iff m p).mpr hread⟩
    · exact (checkWriteAccess_iff m p).mpr (Or.inr hwrite)

/-- Witness for C2: a treasurer principal sees the write-gated module's
settings section. -/
theorem claim_C2_witness :
    (writeGatedModule, ⟨"main", "Treasury", 10⟩) ∈
      getSettingsSectionsForUser [writeGatedModule] ⟨false, ["treasurer"]⟩ :=
  (claim_C2_settings_visibility [writeGatedModule] ⟨false, ["treasurer"]⟩
    writeGatedModule ⟨"main", "Treasury", 10⟩ (by decide) (by decide)).mpr
    (by decide)

/-- C6. The public additive selection keeps exactly the active untagged
variations plus the active variations tagged with the currently selected
type; on the spec's example `[X (untagged), Y (Speaker)]`, selecting Topic
yields `[X]` and selecting Speaker yields `[X, Y]`. -/
theorem claim_C6_additive_selection :
    (∀ (vars : List Variation) (pt : Option Nat) (v : Variation),
      v ∈ additiveVariations vars pt ↔
        v ∈ vars ∧ v.isActive = true ∧
          (v.meetingType = none ∨
            (∃ t, pt = some t ∧ v.meetingType = some t))) ∧
    additiveVariations
      [⟨1, none, 0, false, true, []⟩, ⟨2, some 1, 1, false, true, []⟩]
      (some 2) = [⟨1, none, 0, false, true, []⟩] ∧
    additiveVariations
      [⟨1, none, 0, false, true, []⟩, ⟨2, some 1, 1, false, true, []⟩]
      (some 1) =
      [⟨1, none, 0, false, true, []⟩, ⟨2, some 1, 1, false, true, []⟩] := by
  refine ⟨fun vars pt v => ?_, by decide, by decide⟩
  simp only [additiveVariations, List.mem_filter, Bool.and_eq_true, and_assoc]
  refine and_congr_right fun _ => and_congr_right fun _ => ?_
  rcases v.meetingType with _ | t
  · cases pt <;> simp
  · cases pt with
    | none => simp
    | some q =>
        simp only [beq_iff_eq, Option.some.injEq]
        constructor
        · intro h
          exact Or.inr ⟨t, h.symm, rfl⟩
        · rintro (h | ⟨t', h1, h2⟩)
          · cases h
          · omega

/-! ## Registration lemmas -/

/-- Invariant of the registry state maintained by `register`: the hook log
equals the catalog's key sequence, and keys are pairwise distinct. -/
theorem foldl_register_inv (ms : List Module) : ∀ (s : RegistryState),
    s.onRegisterCalls = s.modules.map (fun kv => kv.1) →
    (s.modules.map (fun kv => kv.1)).Nodup →
    (ms.foldl register s).onRegisterCalls =
        ((ms.foldl register s).modules.map (fun kv => kv.1)) ∧
      (((ms.foldl register s).modules.map (fun kv => kv.1))).Nodup := by
  induction ms with
  | nil => exact fun s h1 h2 => ⟨h1, h2⟩
  | cons m rest ih =>
      intro s h1 h2
      rw [List.foldl_cons]
      by_cases hdup : s.modules.any (fun kv => kv.1 == m.config.name) = true
      · apply ih
        · simp [register, hdup, h1]
        · simp [register, hdup, h2]
      · apply ih
        · simp [register, hdup, h1]
        · have hnot : m.config.name ∉ s.modules.map (fun kv => kv.1) := by
            intro hmem
            obtain ⟨kv, hkv, hkveq⟩ := List.mem_map.mp hmem
            exact hdup (List.any_eq_true.mpr ⟨kv, hkv, by simp [hkveq]⟩)
          simp [register, hdup, List.nodup_append, h2, hnot]

/-- C7. Registering a module under an already-present name leaves the catalog
and hook log unchanged and only appends a warning; and after any discovery
sequence from the empty registry, every catalogued module's `on_register`
hook has run exactly once. -/
theorem claim_C7_duplicate_registration :
    (∀ (s : RegistryState) (m : Module),
      s.modules.any (fun kv => kv.1 == m.config.name) = true →
      (register s m).modules = s.modules ∧
      (register s m).warnings = s.warnings ++ [m.config.name] ∧
      (register s m).onRegisterCalls = s.onRegisterCalls) ∧
    (∀ (ms : List Module) (name : String),
      name ∈ (registerAll ms).modules.map (fun kv => kv.1) →
      (registerAll ms).onRegisterCalls.count name = 1) := by
  constructor
  · intro s m h
    refine ⟨?_, ?_, ?_⟩ <;> simp [register, h]
  · intro ms name hmem
    obtain ⟨hlog, hnodup⟩ :=
      foldl_register_inv ms RegistryState.empty rfl List.nodup_nil
    rw [registerAll] at hmem ⊢
    rw [hlog]
    exact List.count_eq_one_of_mem hnodup hmem

/-- Witness for C7: re-registering the module named "phones" is a no-op, and
its hook ran exactly once. -/
theorem claim_C7_witness :
    (register (registerAll [⟨⟨"phones", [], [], 1, true⟩, []⟩])
        ⟨⟨"phones", [], [], 2, false⟩, []⟩).modules =
      (registerAll [⟨⟨"phones", [], [], 1, true⟩, []⟩]).modules ∧
    (registerAll [⟨⟨"phones", [], [], 1, true⟩, []⟩]).onRegisterCalls.count
      "phones" = 1 :=
  ⟨(claim_C7_duplicate_registration.1 _ _ (by decide)).1,
   claim_C7_duplicate_registration.2 [⟨⟨"phones", [], [], 1, true⟩, []⟩]
     "phones" (by decide)⟩

end MeetingManager
